import Mathlib

/-!
Verification development for the concept-resolution engine of the
stock-selector repository (`src/tools/ticker_financial_health_tools.py`).

The Python functions are shallowly embedded as executable Lean
definitions:
  * pandas DataFrames of observations become `List Obs`;
  * the SEC company-facts JSON becomes an association-list `Facts`
    (taxonomy -> tag -> unit key -> raw records), association lists
    model insertion-ordered Python dicts;
  * machine floats that only ever carry exactly representable decimal
    data (values, scale factors, similarity thresholds) are modelled
    as rationals;
  * a value that fails `pd.to_numeric(..., errors="coerce")` is a
    `none`, mirroring NaN; an unparseable `filed` date is a `none`,
    mirroring NaT;
  * Python `sorted` (a stable sort) and the pandas sorts are modelled
    with `List.insertionSort`; for the pandas sorts (whose default
    kind is unstable) the theorems below only use consequences that
    are independent of how equal keys are ordered.
-/

/-! ## Character and string utilities (Python `str.lower`, `in`, `endswith`) -/

/-- Lowercase a character list; Python `str.lower` restricted to the
ASCII identifiers that tag names are made of. -/
def lowerL (l : List Char) : List Char := l.map Char.toLower

/-- `startsWithL pat s` is true when `s` begins with `pat`. -/
def startsWithL : List Char → List Char → Bool
  | [], _ => true
  | _ :: _, [] => false
  | x :: xs, y :: ys => x = y && startsWithL xs ys

/-- `endsWithL pat s` is true when `s` ends with `pat`; used to model a
regular expression anchored with a trailing `$`. -/
def endsWithL (pat s : List Char) : Bool :=
  startsWithL pat.reverse s.reverse

/-- `containsSub pat s`: Python `pat in s` on strings (contiguous
substring test). -/
def containsSub (pat : List Char) : List Char → Bool
  | [] => startsWithL pat []
  | c :: rest => startsWithL pat (c :: rest) || containsSub pat rest

/-- Embedding of `_contains_any(s, kws)`: true when `kws` is absent or
empty (Python falsiness), otherwise true when at least one keyword is a
case-insensitive substring of `s`. -/
def containsAnyKw (s : String) (kws : Option (List String)) : Bool :=
  match kws with
  | none => true
  | some ks =>
    if ks.isEmpty then true
    else ks.any (fun k => containsSub (lowerL k.toList) (lowerL s.toList))

/-- Embedding of `_contains_none(s, kws)`: true when `kws` is absent or
empty, otherwise true when no keyword is a case-insensitive substring
of `s`. -/
def containsNoneKw (s : String) (kws : Option (List String)) : Bool :=
  match kws with
  | none => true
  | some ks =>
    if ks.isEmpty then true
    else ks.all (fun k => !containsSub (lowerL k.toList) (lowerL s.toList))

/-! ## Tokenizer of `_regex_from_tag`

`re.findall(r"[A-Z]?[a-z]+|[A-Z]+(?![a-z])|\d+", tag)`: at each
position, in order, try (1) an optional uppercase letter followed by a
nonempty lowercase run, (2) a nonempty uppercase run not followed by a
lowercase letter (regex backtracking surrenders the last uppercase
letter of the run when a lowercase letter follows), (3) a digit run;
if none matches, move one character forward. -/

/-- One tokenizer step: the token starting at the current position, if
any, with the remaining input. -/
def tokStep : List Char → Option (List Char × List Char)
  | [] => none
  | c :: rest =>
    if c.isUpper then
      let low := rest.span Char.isLower
      if !low.1.isEmpty then some (c :: low.1, low.2)
      else
        let ups := (c :: rest).span Char.isUpper
        match ups.2 with
        | d :: tl =>
          if d.isLower then
            if 2 ≤ ups.1.length then
              match ups.1.getLast? with
              | some lastc => some (ups.1.dropLast, lastc :: d :: tl)
              | none => none
            else none
          else some (ups.1, ups.2)
        | [] => some (ups.1, [])
    else if c.isLower then
      let low := rest.span Char.isLower
      some (c :: low.1, low.2)
    else if c.isDigit then
      let ds := rest.span Char.isDigit
      some (c :: ds.1, ds.2)
    else none

/-- Scanning loop of `re.findall`; the fuel, initialised to the input
length plus one, dominates the number of iterations because every
iteration consumes at least one character. -/
def findallAux : Nat → List Char → List (List Char)
  | 0, _ => []
  | _, [] => []
  | fuel + 1, cs =>
    match tokStep cs with
    | some (tok, rest) => tok :: findallAux fuel rest
    | none => findallAux fuel (cs.drop 1)

/-- All word-like tokens of a tag name. -/
def findallTokens (cs : List Char) : List (List Char) :=
  findallAux (cs.length + 1) cs

/-! ## The matcher of `_regex_from_tag`

The built pattern is `(?i)(alt1$|alt2$|...)` where each alternative
joins the tokens of one name with `[_\- ]?`.  `search` with every
alternative anchored at the end succeeds exactly when some suffix of
the candidate string is the token sequence joined by one optional
separator character per gap; the finite separator choices are
enumerated explicitly.  A name with no tokens falls back to a literal
(escaped) alternative. -/

/-- The possible separators matched by `[_\- ]?`: nothing, underscore,
hyphen, space. -/
def sepOptions : List (List Char) := [[], ['_'], ['-'], [' ']]

/-- All strings denoted by the tokens joined with `[_\- ]?`. -/
def joinToks : List (List Char) → List (List Char)
  | [] => [[]]
  | [t] => [t]
  | t :: ts =>
    (joinToks ts).flatMap (fun rest => sepOptions.map (fun sep => t ++ sep ++ rest))

/-- The token list of one alternative: the tokenization of the name,
or the literal name itself when tokenization is empty (the
`re.escape` fallback). -/
def altToks (name : List Char) : List (List Char) :=
  let ps := findallTokens name
  if ps.isEmpty then [name] else ps

/-- Embedding of `_regex_from_tag(tag, synonyms).search(s)`:
case-insensitive, one end-anchored alternative per name. -/
def regexSearch (tag : String) (synonyms : Option (List String)) (s : String) : Bool :=
  let alts := altToks tag.toList :: (synonyms.getD []).map (fun syn => altToks syn.toList)
  let sLow := lowerL s.toList
  alts.any (fun toks => (joinToks toks).any (fun j => endsWithL (lowerL j) sLow))

/-! ## Similarity of `_similarity`

`SequenceMatcher(None, a.lower(), b.lower()).ratio()` with the
Ratcliff-Obershelp scheme: twice the total size of the matching
blocks over the total length.  The autojunk heuristic of
`SequenceMatcher` only fires on strings of at least 200 characters
and is never reached by tag names, so it is not modelled. -/

/-- Length of the common prefix of two character lists. -/
def prefLen : List Char → List Char → Nat
  | x :: xs, y :: ys => if x = y then prefLen xs ys + 1 else 0
  | _, _ => 0

/-- `find_longest_match` on whole lists: the longest common contiguous
block, preferring the smallest start in `a`, then the smallest start
in `b`, returned as (start in a, start in b, length). -/
def bestMatch (a b : List Char) : Nat × Nat × Nat :=
  (List.range a.length).foldl
    (fun best i =>
      (List.range b.length).foldl
        (fun best j =>
          let k := prefLen (a.drop i) (b.drop j)
          if best.2.2 < k then (i, j, k) else best)
        best)
    (0, 0, 0)

/-- Total size of the matching blocks (`get_matching_blocks`): take the
longest match, recurse on the parts to its left and to its right.  The
fuel, initialised to the total length, dominates the recursion depth
because every level removes at least one character from each side of
the split. -/
def matchTotal : Nat → List Char → List Char → Nat
  | 0, _, _ => 0
  | fuel + 1, a, b =>
    let m := bestMatch a b
    if m.2.2 = 0 then 0
    else
      matchTotal fuel (a.take m.1) (b.take m.2.1) + m.2.2 +
        matchTotal fuel (a.drop (m.1 + m.2.2)) (b.drop (m.2.1 + m.2.2))

/-- Embedding of `_similarity(a, b)`; 1 on two empty strings as in
`difflib`.  `mkRat` is the exact quotient `2 * matches / total`. -/
def simVal (a b : String) : ℚ :=
  let x := lowerL a.toList
  let y := lowerL b.toList
  if x.length + y.length = 0 then 1
  else mkRat (2 * matchTotal (x.length + y.length) x y) (x.length + y.length)

/-! ## Exact rational arithmetic

`Rat.add` and `Rat.mul` do not reduce inside the kernel, so the
engine's two arithmetic operations on values are written through
`mkRat`; `qMul_eq_mul` and `qAdd_eq_add` below prove them equal to `*`
and `+`. -/

/-- Rational multiplication through `mkRat`. -/
def qMul (a b : ℚ) : ℚ := mkRat (a.num * b.num) (a.den * b.den)

/-- Rational addition through `mkRat`. -/
def qAdd (a b : ℚ) : ℚ := mkRat (a.num * b.den + b.num * a.den) (a.den * b.den)

/-! ## Data model

A raw record is one entry of `units[unit_key]` in the company-facts
JSON; an observation is one row of the extracted DataFrame.  `endD`
stands for the source column `end` (a reserved word).  Dates are
already-parsed day numbers; `none` models a missing or unparseable
entry (NaN/NaT), and `val = none` models a value that fails numeric
coercion. -/

structure RawRec where
  fy : Option Nat
  fp : Option String
  form : Option String
  endD : Option String
  filed : Option Nat
  val : Option ℚ
deriving DecidableEq

structure Obs where
  fy : Option Nat
  fp : Option String
  form : Option String
  endD : Option String
  filed : Option Nat
  unit_key : String
  taxonomy : String
  tag : String
  value : Option ℚ
deriving DecidableEq

/-- Unit key -> raw records, in dict insertion order. -/
abbrev UnitsMap := List (String × List RawRec)

/-- Tag -> units. -/
abbrev ConceptMap := List (String × UnitsMap)

/-- Taxonomy -> tag -> units: the `facts` object of the company-facts
JSON (each tag node collapsed to its `units` member, the only member
the engine reads). -/
abbrev Facts := List (String × ConceptMap)

/-- Python `dict.get`: the value of the first matching key. -/
def lookupA {β : Type} (l : List (String × β)) (k : String) : Option β :=
  match l.find? (fun kv => kv.1 == k) with
  | some kv => some kv.2
  | none => none

/-! ## Unit selection and scaling -/

/-- Embedding of `_pick_unit_key(units, prefer)`: `None` on an empty
dict, else the first preferred key present, else the first declared
key (`next(iter(units), None)`). -/
def pickUnitKey (units : UnitsMap) (prefer : List String) : Option String :=
  if units.isEmpty then none
  else
    match prefer.find? (fun u => (lookupA units u).isSome) with
    | some u => some u
    | none => units.head?.map (fun kv => kv.1)

/-- Embedding of `_unit_scale`: magnitude-only scaling, 1 for any
unrecognized key. -/
def unitScale (uk : String) : ℚ :=
  if uk = "USD" then 1
  else if uk = "USDm" then 1000000
  else if uk = "USDth" then 1000
  else if uk = "EUR" then 1
  else if uk = "GBP" then 1
  else if uk = "pure" then 1
  else 1

/-! ## Concept extraction (`_extract_concept`) -/

/-- One DataFrame row built from one raw record:
`value = to_numeric(val, errors="coerce") * scale` with provenance
columns attached. -/
def rawToObs (taxonomy tag unit_key : String) (r : RawRec) : Obs :=
  ⟨r.fy, r.fp, r.form, r.endD, r.filed, unit_key, taxonomy, tag,
    r.val.map (fun v => qMul v (unitScale unit_key))⟩

/-- Embedding of `_extract_concept`: empty on a missing or empty node,
else the rows of the chosen unit with scaled values.  The projection
to the core columns is the identity here because `Obs` carries exactly
those columns. -/
def extractConcept (facts : Facts) (taxonomy tag : String) (preferUnits : List String) : List Obs :=
  match lookupA facts taxonomy with
  | none => []
  | some concepts =>
    match lookupA concepts tag with
    | none => []
    | some units =>
      match pickUnitKey units preferUnits with
      | none => []
      | some uk => ((lookupA units uk).getD []).map (rawToObs taxonomy tag uk)

/-! ## Temporal deduplication (`_dedupe_latest`) -/

/-- The identity key `("fy","fp","end","form","taxonomy","tag")`.
Missing entries compare equal to each other, as NaN keys do under
pandas `drop_duplicates`. -/
def keyOf (o : Obs) : Option Nat × Option String × Option String × Option String × String × String :=
  (o.fy, o.fp, o.endD, o.form, o.taxonomy, o.tag)

/-- Ascending order on filed dates with NaT sorted last
(`sort_values("filed")`, default `na_position="last"`). -/
def filedLe : Option Nat → Option Nat → Bool
  | some a, some b => decide (a ≤ b)
  | some _, none => true
  | none, some _ => false
  | none, none => true

/-- `filedLe` on the filed column, as a relation for `insertionSort`. -/
def filedRel (a b : Obs) : Prop := filedLe a.filed b.filed = true

instance : DecidableRel filedRel := fun a b => instDecidableEqBool (filedLe a.filed b.filed) true

instance : IsTotal Obs filedRel := by
  constructor
  intro a b
  unfold filedRel
  cases a.filed <;> cases b.filed <;> simp [filedLe]
  omega

instance : IsTrans Obs filedRel := by
  constructor
  intro a b c hab hbc
  unfold filedRel at hab hbc ⊢
  revert hab hbc
  cases a.filed <;> cases b.filed <;> cases c.filed <;> simp [filedLe]
  omega

/-- `drop_duplicates(keys, keep="last")`: keep a row exactly when no
later row has the same identity key. -/
def dropDupKeysLast : List Obs → List Obs
  | [] => []
  | x :: xs =>
    if xs.any (fun y => decide (keyOf y = keyOf x)) then dropDupKeysLast xs
    else x :: dropDupKeysLast xs

/-- Embedding of `_dedupe_latest`: sort ascending by filed date, then
keep the last row of every identity key.  The pandas sort kind is
unstable; the stable sort here is one of its admissible outcomes, and
no theorem below depends on the order of rows with equal filed
dates. -/
def dedupeLatest (df : List Obs) : List Obs :=
  dropDupKeysLast (List.insertionSort filedRel df)

/-! ## Candidate gathering (`_gather_candidates`) -/

/-- `df[df["form"].isin(only_forms)]` guarded by Python truthiness of
`only_forms`; a NaN form is never in the allowed list. -/
def applyFormFilter (onlyForms : Option (List String)) (df : List Obs) : List Obs :=
  match onlyForms with
  | none => df
  | some fs =>
    if fs.isEmpty then df
    else df.filter (fun o => match o.form with
      | some f => fs.contains f
      | none => false)

/-- The shared tail of each gathering arm: extract, and when the
extraction is nonempty append the form-filtered, deduplicated
candidate. -/
def candFrom (facts : Facts) (onlyForms : Option (List String)) (prefer : List String)
    (taxonomy tag : String) : Option (List Obs) :=
  let df := extractConcept facts taxonomy tag prefer
  if df.isEmpty then none
  else some (dedupeLatest (applyFormFilter onlyForms df))

/-- Pass 1: the literal target tag in the two standard taxonomies. -/
def exactPassStd (facts : Facts) (target : String) (prefer : List String)
    (onlyForms : Option (List String)) : List (List Obs) :=
  (["us-gaap", "ifrs-full"] : List String).filterMap
    (fun tax => candFrom facts onlyForms prefer tax target)

/-- Pass 2: the literal target tag in every other taxonomy. -/
def exactPassExt (facts : Facts) (target : String) (prefer : List String)
    (onlyForms : Option (List String)) : List (List Obs) :=
  facts.filterMap (fun tc =>
    if tc.1 = "us-gaap" ∨ tc.1 = "ifrs-full" then none
    else if (lookupA tc.2 target).isSome then candFrom facts onlyForms prefer tc.1 target
    else none)

/-- One (taxonomy, tag) step of the fuzzy pass, in the order the
source checks: the two keyword gates first (a failing tag is skipped
before any pattern or similarity work), then the
regex-or-similarity test, then extraction. -/
def fuzzyGate (facts : Facts) (target : String) (synonyms : Option (List String))
    (prefer : List String) (onlyForms : Option (List String)) (minSim : ℚ)
    (reqKws denyKws : Option (List String)) (tax : String) (tg : String × UnitsMap) :
    Option (List Obs) :=
  if !containsAnyKw tg.1 reqKws then none
  else if !containsNoneKw tg.1 denyKws then none
  else if !(regexSearch target synonyms tg.1 || decide (minSim ≤ simVal target tg.1)) then none
  else candFrom facts onlyForms prefer tax tg.1

/-- Pass 3: every (taxonomy, tag) pair of the whole document, through
`fuzzyGate`. -/
def fuzzyPass (facts : Facts) (target : String) (synonyms : Option (List String))
    (prefer : List String) (onlyForms : Option (List String)) (minSim : ℚ)
    (reqKws denyKws : Option (List String)) : List (List Obs) :=
  facts.flatMap (fun tc =>
    tc.2.filterMap (fuzzyGate facts target synonyms prefer onlyForms minSim reqKws denyKws tc.1))

/-- Embedding of `_gather_candidates`: the three passes pooled, with
empty candidates removed at the end. -/
def gatherCandidates (facts : Facts) (target : String) (synonyms : Option (List String))
    (prefer : List String) (onlyForms : Option (List String)) (minSim : ℚ)
    (reqKws denyKws : Option (List String)) : List (List Obs) :=
  (exactPassStd facts target prefer onlyForms ++
      exactPassExt facts target prefer onlyForms ++
      fuzzyPass facts target synonyms prefer onlyForms minSim reqKws denyKws).filter
    (fun c => !c.isEmpty)

/-! ## Filing-regime narrowing (`_narrow_candidates_by_form`) -/

def usCoreForms : List String := ["10-K", "10-K/A", "10-Q", "10-Q/A"]

def fpiCoreForms : List String := ["20-F", "20-F/A", "6-K", "6-K/A"]

/-- Embedding of `_narrow_candidates_by_form`. -/
def narrowByForm (cands : List (List Obs)) : List (List Obs) :=
  if cands.isEmpty then cands
  else
    let present := (cands.flatMap id).filterMap (fun o => o.form)
    let narrowed :=
      if present.contains "10-K" || present.contains "10-Q" then
        cands.map (fun df => df.filter (fun o => match o.form with
          | some f => usCoreForms.contains f
          | none => false))
      else if present.contains "20-F" || present.contains "6-K" then
        cands.map (fun df => df.filter (fun o => match o.form with
          | some f => fpiCoreForms.contains f
          | none => false))
      else cands
    narrowed.filter (fun df => !df.isEmpty)

/-! ## Scoring and selection (`_score_candidate`, `_pick_best`) -/

/-- Latest filed date of a candidate, `none` for NaT (empty candidate
or no valid filed date); pandas `max` skips NaT. -/
def latestFiled (c : List Obs) : Option Nat :=
  c.foldl
    (fun acc o =>
      match acc, o.filed with
      | none, f => f
      | some a, none => some a
      | some a, some b => some (max a b))
    none

/-- `df["value"].abs().sum(skipna=True)`. -/
def magnitudeOf (c : List Obs) : ℚ :=
  (c.filterMap (fun o => o.value)).foldl (fun a v => qAdd a |v|) 0

/-- The score triple of `_score_candidate`. -/
structure ScoreT where
  nObs : Nat
  latest : Option Nat
  magnitude : ℚ
deriving DecidableEq

def scoreOf (c : List Obs) : ScoreT :=
  ⟨c.length, latestFiled c, magnitudeOf c⟩

/-- Python `==` on the timestamp slot: NaT compares unequal to
everything, including NaT. -/
def tsEq : Option Nat → Option Nat → Bool
  | some a, some b => a == b
  | _, _ => false

/-- Python `<` on the timestamp slot: every comparison against NaT is
false. -/
def tsLt : Option Nat → Option Nat → Bool
  | some a, some b => decide (a < b)
  | _, _ => false

/-- Python tuple `<` on score triples: walk the slots, return the `<`
of the first slot whose values compare unequal. -/
def lexLt (a b : ScoreT) : Bool :=
  if a.nObs ≠ b.nObs then decide (a.nObs < b.nObs)
  else if !tsEq a.latest b.latest then tsLt a.latest b.latest
  else if a.magnitude ≠ b.magnitude then decide (a.magnitude < b.magnitude)
  else false

/-- Descending-score order used by `sorted(..., reverse=True)`: `a`
precedes `b` when the score of `a` is not below the score of `b`; a
stable insertion with this relation reproduces Python's stable
descending sort.  The positional index that the source appends to each
tuple is not part of the sort key and is modelled by returning the
chosen candidate itself. -/
def pickRel (a b : List Obs) : Prop := lexLt (scoreOf a) (scoreOf b) = false

instance : DecidableRel pickRel := fun a b => instDecidableEqBool (lexLt (scoreOf a) (scoreOf b)) false

/-- Embedding of `_pick_best`: empty on an empty pool, else the first
candidate of the stable descending sort. -/
def pickBest (cands : List (List Obs)) : List Obs :=
  ((List.insertionSort pickRel cands).head?).getD []

/-- Reference selector written from the spec of `_pick_best`: the
earliest candidate whose score no later candidate strictly beats, via
a left-to-right scan keeping the incumbent on ties. -/
def firstMax : List (List Obs) → Option (List Obs)
  | [] => none
  | x :: xs =>
    match firstMax xs with
    | none => some x
    | some m => if lexLt (scoreOf x) (scoreOf m) then some m else some x

/-! ## The resolved series (`get_concept_series_robust`)

Document acquisition (`get_company_facts`, a network call) is outside
the engine; the already-acquired document is the first parameter.
Defaults at the source call site: `prefer_units = ("USD","USDm","USDth")`,
`min_similarity = 0.66`. -/

/-- `sort_values(["end","filed"])`: ascending string order on the
period-end column, ties by filed date, missing entries last. -/
def strLe : List Char → List Char → Bool
  | [], _ => true
  | _ :: _, [] => false
  | x :: xs, y :: ys => if x = y then strLe xs ys else decide (x.val < y.val)

def optStrLe : Option String → Option String → Bool
  | some a, some b => strLe a.toList b.toList
  | some _, none => true
  | none, some _ => false
  | none, none => true

def leEndFiled (a b : Obs) : Bool :=
  if a.endD = b.endD then filedLe a.filed b.filed else optStrLe a.endD b.endD

def resRel (a b : Obs) : Prop := leEndFiled a b = true

instance : DecidableRel resRel := fun a b => instDecidableEqBool (leEndFiled a b) true

/-- Embedding of `get_concept_series_robust` after document
acquisition.  Mirroring the source, the narrowed pool computed on the
line before selection is discarded: `_narrow_candidates_by_form(cands)`
is called without using its return value, so `_pick_best` runs on the
un-narrowed pool.  The final column projection is the identity because
`Obs` carries exactly the projected columns. -/
def getConceptSeriesRobust (facts : Facts) (target : String) (synonyms : Option (List String))
    (preferUnits : List String) (onlyForms : Option (List String)) (minSimilarity : ℚ)
    (requiredKeywords denyKeywords : Option (List String)) : List Obs :=
  let cands := gatherCandidates facts target synonyms preferUnits onlyForms minSimilarity
    requiredKeywords denyKeywords
  let _narrowed := narrowByForm cands
  let best := pickBest cands
  if best.isEmpty then best
  else List.insertionSort resRel best

/-! ## Pair accounting over a candidate pool -/

/-- A candidate series mentions the (taxonomy, tag) pair. -/
def pairHit (tax tag : String) (c : List Obs) : Bool :=
  c.any (fun o => o.taxonomy == tax && o.tag == tag)

/-- How many candidate series of a pool mention the pair. -/
def pairCount (cands : List (List Obs)) (tax tag : String) : Nat :=
  (cands.filter (pairHit tax tag)).length

/-! ## Concrete documents and observations used by the
counterexamples, the scenario checks and the witnesses -/

/-- The default preferred-unit ranking of the entry point. -/
def prefUSD : List String := ["USD", "USDm", "USDth"]

def rDom : RawRec := ⟨some 2023, some "FY", some "10-K", some "2023-12-31", some 1000, some 100⟩

def rFpiA : RawRec := ⟨some 2023, some "Q2", some "6-K", some "2023-06-30", some 900, some 50⟩

def rFpiB : RawRec := ⟨some 2023, some "FY", some "6-K", some "2023-12-31", some 950, some 60⟩

/-- A document whose pool holds a one-row 10-K candidate under the
standard taxonomy and a two-row 6-K candidate under a company
extension taxonomy. -/
def mixedRegimeFacts : Facts :=
  [("us-gaap", [("Rev", [("USD", [rDom])])]),
   ("ext", [("Rev", [("USD", [rFpiA, rFpiB])])])]

def salesRaw : RawRec := ⟨some 2023, some "FY", some "10-K", some "2023-12-31", some 10, some 7⟩

/-- A document whose only tag contains the required keyword "sales"
but not the required keyword "revenue". -/
def salesFacts : Facts := [("us-gaap", [("TotalSales", [("USD", [salesRaw])])])]

def salesCand : List Obs := [rawToObs "us-gaap" "TotalSales" "USD" salesRaw]

def badValRaw : RawRec := ⟨some 2022, some "FY", some "10-K", some "2022-12-31", some 800, none⟩

def goodValRaw : RawRec := ⟨some 2023, some "FY", some "10-K", some "2023-12-31", some 900, some 3⟩

/-- A document with one observation whose value fails numeric
coercion and one whose value is numeric. -/
def badValFacts : Facts := [("us-gaap", [("Tag1", [("USD", [badValRaw, goodValRaw])])])]

def badValObs : Obs := rawToObs "us-gaap" "Tag1" "USD" badValRaw

def debtRaw1 : RawRec := ⟨some 2022, some "FY", some "10-K", some "2022-12-31", some 700, some 5⟩

def debtRaw2 : RawRec := ⟨some 2023, some "FY", some "10-K", some "2023-12-31", some 800, some 6⟩

/-- A document where the target tag exists literally in the standard
taxonomy, so it is captured by the exact pass and again by the fuzzy
pass. -/
def debtFacts : Facts := [("us-gaap", [("DebtCurrent", [("USD", [debtRaw1, debtRaw2])])])]

/-- Scenario candidate A: three observations under a synonym tag. -/
def scenA : List Obs :=
  [⟨some 2021, some "FY", some "10-K", some "2021-12-31", some 100, "USD", "us-gaap", "ShortTermBorrowings", some 10⟩,
   ⟨some 2022, some "FY", some "10-K", some "2022-12-31", some 200, "USD", "us-gaap", "ShortTermBorrowings", some 11⟩,
   ⟨some 2023, some "FY", some "10-K", some "2023-12-31", some 300, "USD", "us-gaap", "ShortTermBorrowings", some 12⟩]

/-- Scenario candidate B: one observation under the exact target tag,
with the same most-recent filed date as A. -/
def scenB : List Obs :=
  [⟨some 2023, some "FY", some "10-K", some "2023-12-31", some 300, "USD", "us-gaap", "DebtCurrent", some 99⟩]

/-- Tie candidate 0: score triple (1, 300, 7). -/
def tieCand0 : List Obs :=
  [⟨some 2023, some "FY", some "10-K", some "2023-12-31", some 300, "USD", "us-gaap", "TagA", some 7⟩]

/-- Tie candidate 1: a different series with the same score triple
(1, 300, 7), since the magnitude takes absolute values. -/
def tieCand1 : List Obs :=
  [⟨some 2023, some "FY", some "10-K", some "2023-12-31", some 300, "USD", "us-gaap", "TagB", some (-7)⟩]

def milRaw : RawRec := ⟨some 2023, some "FY", some "10-K", some "2023-12-31", some 100, some 5⟩

/-- A document reporting the value 5 under the millions unit key. -/
def milFacts : Facts := [("us-gaap", [("Foo", [("USDm", [milRaw])])])]

/-- Two observations sharing the identity key with different filed
dates. -/
def dupObsEarly : Obs := ⟨some 2023, some "FY", some "10-K", some "2023-12-31", some 100, "USD", "us-gaap", "T", some 1⟩

def dupObsLate : Obs := ⟨some 2023, some "FY", some "10-K", some "2023-12-31", some 200, "USD", "us-gaap", "T", some 2⟩

/-! ## Arithmetic wrapper lemmas -/

theorem qMul_eq_mul (a b : ℚ) : qMul a b = a * b := by
  rw [qMul, Rat.mkRat_eq_div]
  push_cast
  conv_rhs => rw [← Rat.num_div_den a, ← Rat.num_div_den b]
  rw [div_mul_div_comm]

theorem qAdd_eq_add (a b : ℚ) : qAdd a b = a + b := by
  have ha : ((a.den : ℚ)) ≠ 0 := by
    exact_mod_cast a.den_nz
  have hb : ((b.den : ℚ)) ≠ 0 := by
    exact_mod_cast b.den_nz
  rw [qAdd, Rat.mkRat_eq_div]
  push_cast
  conv_rhs => rw [← Rat.num_div_den a, ← Rat.num_div_den b]
  rw [div_add_div _ _ ha hb]
  ring_nf

/-! ## Deduplication lemmas -/

theorem filedLe_refl (f : Option Nat) : filedLe f f = true := by
  cases f <;> simp [filedLe]

theorem mem_dropDupKeysLast {o : Obs} : ∀ {l : List Obs}, o ∈ dropDupKeysLast l → o ∈ l := by
  intro l
  induction l with
  | nil => simp [dropDupKeysLast]
  | cons x xs ih =>
    rw [dropDupKeysLast]
    split
    · intro h
      exact List.mem_cons_of_mem x (ih h)
    · intro h
      rcases List.mem_cons.mp h with h | h
      · exact h ▸ List.mem_cons_self x xs
      · exact List.mem_cons_of_mem x (ih h)

theorem dropDupKeysLast_pairwise :
    ∀ l : List Obs, (dropDupKeysLast l).Pairwise (fun a b => keyOf a ≠ keyOf b) := by
  intro l
  induction l with
  | nil => simp [dropDupKeysLast]
  | cons x xs ih =>
    rw [dropDupKeysLast]
    split
    · exact ih
    · rename_i hnone
      refine List.Pairwise.cons ?_ ih
      intro y hy hkey
      have hyxs : y ∈ xs := mem_dropDupKeysLast hy
      have : xs.any (fun y => decide (keyOf y = keyOf x)) = true :=
        List.any_eq_true.mpr ⟨y, hyxs, by simp [hkey]⟩
      exact hnone this

theorem dropDupKeysLast_latest :
    ∀ l : List Obs, List.Sorted filedRel l →
      ∀ o ∈ dropDupKeysLast l, ∀ p ∈ l, keyOf p = keyOf o → filedLe p.filed o.filed = true := by
  intro l
  induction l with
  | nil => simp [dropDupKeysLast]
  | cons x xs ih =>
    intro hs o ho p hp hk
    have hx : ∀ b ∈ xs, filedRel x b := List.rel_of_sorted_cons hs
    have hxs : List.Sorted filedRel xs := (List.sorted_cons.mp hs).2
    rw [dropDupKeysLast] at ho
    by_cases hdup : xs.any (fun y => decide (keyOf y = keyOf x)) = true
    · rw [if_pos hdup] at ho
      rcases List.mem_cons.mp hp with hpx | hpxs
      · subst hpx
        exact hx o (mem_dropDupKeysLast ho)
      · exact ih hxs o ho p hpxs hk
    · rw [if_neg hdup] at ho
      rcases List.mem_cons.mp ho with hox | ho2
      · subst hox
        rcases List.mem_cons.mp hp with hpx | hpxs
        · subst hpx
          exact filedLe_refl _
        · exfalso
          exact hdup (List.any_eq_true.mpr ⟨p, hpxs, by simp [hk]⟩)
      · rcases List.mem_cons.mp hp with hpx | hpxs
        · subst hpx
          exact hx o (mem_dropDupKeysLast ho2)
        · exact ih hxs o ho2 p hpxs hk

theorem dropDupKeysLast_covers :
    ∀ l : List Obs, ∀ p ∈ l, ∃ o ∈ dropDupKeysLast l, keyOf o = keyOf p := by
  intro l
  induction l with
  | nil => simp
  | cons x xs ih =>
    intro p hp
    rw [dropDupKeysLast]
    split
    · rename_i hsome
      rcases List.mem_cons.mp hp with rfl | hpxs
      · obtain ⟨y, hyxs, hyk⟩ := List.any_eq_true.mp hsome
        obtain ⟨o, hoin, hok⟩ := ih y hyxs
        exact ⟨o, hoin, hok.trans (of_decide_eq_true hyk)⟩
      · exact ih p hpxs
    · rcases List.mem_cons.mp hp with rfl | hpxs
      · exact ⟨p, List.mem_cons_self _ _, rfl⟩
      · obtain ⟨o, hoin, hok⟩ := ih p hpxs
        exact ⟨o, List.mem_cons_of_mem x hoin, hok⟩

theorem mem_dedupeLatest {o : Obs} {l : List Obs} (h : o ∈ dedupeLatest l) : o ∈ l :=
  (List.perm_insertionSort filedRel l).mem_iff.mp (mem_dropDupKeysLast h)

theorem dedupeLatest_pairwise (l : List Obs) :
    (dedupeLatest l).Pairwise (fun a b => keyOf a ≠ keyOf b) :=
  dropDupKeysLast_pairwise _

theorem dedupeLatest_latest {l : List Obs} {o : Obs} (ho : o ∈ dedupeLatest l) :
    ∀ p ∈ l, keyOf p = keyOf o → filedLe p.filed o.filed = true := by
  intro p hp hk
  have hsort : List.Sorted filedRel (List.insertionSort filedRel l) :=
    List.sorted_insertionSort filedRel l
  have hpmem : p ∈ List.insertionSort filedRel l :=
    (List.perm_insertionSort filedRel l).mem_iff.mpr hp
  exact dropDupKeysLast_latest _ hsort o ho p hpmem hk

theorem dedupeLatest_covers {l : List Obs} {p : Obs} (hp : p ∈ l) :
    ∃ o ∈ dedupeLatest l, keyOf o = keyOf p := by
  have hpmem : p ∈ List.insertionSort filedRel l :=
    (List.perm_insertionSort filedRel l).mem_iff.mpr hp
  exact dropDupKeysLast_covers _ p hpmem

/-! ## Score-order lemmas -/

theorem lexLt_irrefl_any (a : ScoreT) : lexLt a a = false := by
  rcases a with ⟨n, t, m⟩
  cases t <;> simp [lexLt, tsEq, tsLt]

theorem lexLt_some_iff (n1 n2 : Nat) (t1 t2 : Nat) (m1 m2 : ℚ) :
    lexLt ⟨n1, some t1, m1⟩ ⟨n2, some t2, m2⟩ = true ↔
      (n1 < n2 ∨ (n1 = n2 ∧ (t1 < t2 ∨ (t1 = t2 ∧ m1 < m2)))) := by
  by_cases hn : n1 = n2
  · subst hn
    by_cases ht : t1 = t2
    · subst ht
      by_cases hm : m1 = m2
      · subst hm
        simp [lexLt, tsEq, tsLt]
      · simp [lexLt, tsEq, tsLt, hm]
    · simp [lexLt, tsEq, tsLt, ht]
  · simp [lexLt, tsEq, tsLt, hn]

theorem lexLt_asymm_v {a b : ScoreT} (ha : a.latest.isSome = true)
    (hb : b.latest.isSome = true) (h : lexLt a b = true) : lexLt b a = false := by
  rcases a with ⟨n1, t1, m1⟩
  rcases b with ⟨n2, t2, m2⟩
  obtain ⟨tv1, rfl⟩ := Option.isSome_iff_exists.mp ha
  obtain ⟨tv2, rfl⟩ := Option.isSome_iff_exists.mp hb
  rw [Bool.eq_false_iff]
  intro h2
  rw [lexLt_some_iff] at h h2
  rcases h with h | ⟨hn, h | ⟨ht, hm⟩⟩ <;>
    rcases h2 with h2 | ⟨hn2, h2 | ⟨ht2, hm2⟩⟩ <;>
    first
      | omega
      | linarith

theorem lexLt_ge_trans_v {a b c : ScoreT} (ha : a.latest.isSome = true)
    (hb : b.latest.isSome = true) (hc : c.latest.isSome = true)
    (h1 : lexLt a b = false) (h2 : lexLt b c = false) : lexLt a c = false := by
  rcases a with ⟨n1, t1, m1⟩
  rcases b with ⟨n2, t2, m2⟩
  rcases c with ⟨n3, t3, m3⟩
  obtain ⟨tv1, rfl⟩ := Option.isSome_iff_exists.mp ha
  obtain ⟨tv2, rfl⟩ := Option.isSome_iff_exists.mp hb
  obtain ⟨tv3, rfl⟩ := Option.isSome_iff_exists.mp hc
  have p1 : ¬ (n1 < n2 ∨ (n1 = n2 ∧ (tv1 < tv2 ∨ (tv1 = tv2 ∧ m1 < m2)))) := by
    rw [← lexLt_some_iff]
    simp [h1]
  have p2 : ¬ (n2 < n3 ∨ (n2 = n3 ∧ (tv2 < tv3 ∨ (tv2 = tv3 ∧ m2 < m3)))) := by
    rw [← lexLt_some_iff]
    simp [h2]
  rw [Bool.eq_false_iff]
  intro h3
  rw [lexLt_some_iff] at h3
  push_neg at p1 p2
  obtain ⟨h1n, h1r⟩ := p1
  obtain ⟨h2n, h2r⟩ := p2
  rcases h3 with h3 | ⟨hn13, h3⟩
  · omega
  · have hn12 : n1 = n2 := by omega
    have hn23 : n2 = n3 := by omega
    obtain ⟨h1t, h1m⟩ := h1r hn12
    obtain ⟨h2t, h2m⟩ := h2r hn23
    rcases h3 with h3 | ⟨ht13, hm13⟩
    · omega
    · have ht12 : tv1 = tv2 := by omega
      have ht23 : tv2 = tv3 := by omega
      have hq1 := h1m ht12
      have hq2 := h2m ht23
      linarith

/-! ## The head of the stable descending sort is the first maximum -/

theorem head_insertionSort_pick (l : List (List Obs)) :
    (List.insertionSort pickRel l).head? = firstMax l := by
  induction l with
  | nil => rfl
  | cons x xs ih =>
    simp only [List.insertionSort]
    cases hs : List.insertionSort pickRel xs with
    | nil =>
      rw [hs] at ih
      simp only [List.head?_nil] at ih
      simp [List.orderedInsert, firstMax, ← ih]
    | cons y t =>
      rw [hs] at ih
      simp only [List.head?_cons] at ih
      simp only [List.orderedInsert]
      by_cases hxy : pickRel x y
      · rw [if_pos hxy]
        have hfalse : lexLt (scoreOf x) (scoreOf y) = false := hxy
        simp [firstMax, ← ih, hfalse]
      · rw [if_neg hxy]
        have htrue : lexLt (scoreOf x) (scoreOf y) = true := by
          cases hv : lexLt (scoreOf x) (scoreOf y) with
          | false => exact absurd hv hxy
          | true => rfl
        simp [firstMax, ← ih, htrue]

theorem firstMax_eq_none {l : List (List Obs)} (h : firstMax l = none) : l = [] := by
  cases l with
  | nil => rfl
  | cons x xs =>
    exfalso
    rw [firstMax] at h
    cases hm : firstMax xs with
    | none =>
      rw [hm] at h
      simp at h
    | some y =>
      rw [hm] at h
      by_cases hc : lexLt (scoreOf x) (scoreOf y) = true
      · simp [hc] at h
      · simp [hc] at h

theorem firstMax_mem : ∀ {l : List (List Obs)} {m : List Obs}, firstMax l = some m → m ∈ l := by
  intro l
  induction l with
  | nil => intro m h; simp [firstMax] at h
  | cons x xs ih =>
    intro m h
    rw [firstMax] at h
    cases hm : firstMax xs with
    | none =>
      rw [hm] at h
      simp at h
      exact h ▸ List.mem_cons_self x xs
    | some y =>
      rw [hm] at h
      by_cases hxy : lexLt (scoreOf x) (scoreOf y) = true
      · simp [hxy] at h
        exact List.mem_cons_of_mem x (h ▸ ih hm)
      · have hfalse : lexLt (scoreOf x) (scoreOf y) = false := by
          cases hv : lexLt (scoreOf x) (scoreOf y) with
          | false => rfl
          | true => exact absurd hv hxy
        simp [hfalse] at h
        exact h ▸ List.mem_cons_self x xs

theorem firstMax_max :
    ∀ {l : List (List Obs)} {m : List Obs},
      (∀ c ∈ l, (latestFiled c).isSome = true) → firstMax l = some m →
        ∀ c ∈ l, lexLt (scoreOf m) (scoreOf c) = false := by
  intro l
  induction l with
  | nil => intro m _ _ c hc; simp at hc
  | cons x xs ih =>
    intro m hv h c hc
    rw [firstMax] at h
    cases hm : firstMax xs with
    | none =>
      have hxs : xs = [] := firstMax_eq_none hm
      subst hxs
      rw [hm] at h
      simp at h
      subst h
      rcases List.mem_cons.mp hc with hcx | hcxs
      · subst hcx
        exact lexLt_irrefl_any _
      · simp at hcxs
    | some y =>
      rw [hm] at h
      have hymem : y ∈ xs := firstMax_mem hm
      have hvx : (latestFiled x).isSome = true := hv x (List.mem_cons_self x xs)
      have hvy : (latestFiled y).isSome = true := hv y (List.mem_cons_of_mem x hymem)
      have hvxs : ∀ d ∈ xs, (latestFiled d).isSome = true :=
        fun d hd => hv d (List.mem_cons_of_mem x hd)
      by_cases hxy : lexLt (scoreOf x) (scoreOf y) = true
      · simp [hxy] at h
        subst h
        rcases List.mem_cons.mp hc with hcx | hcxs
        · subst hcx
          exact lexLt_asymm_v hvx hvy hxy
        · exact ih hvxs hm c hcxs
      · have hfalse : lexLt (scoreOf x) (scoreOf y) = false := by
          cases hvv : lexLt (scoreOf x) (scoreOf y) with
          | false => rfl
          | true => exact absurd hvv hxy
        simp [hfalse] at h
        subst h
        rcases List.mem_cons.mp hc with hcx | hcxs
        · subst hcx
          exact lexLt_irrefl_any _
        · have hvc : (latestFiled c).isSome = true := hvxs c hcxs
          exact lexLt_ge_trans_v hvx hvy hvc hfalse (ih hvxs hm c hcxs)

theorem pickBest_eq_firstMax (cands : List (List Obs)) :
    pickBest cands = (firstMax cands).getD [] := by
  rw [pickBest, head_insertionSort_pick]

theorem firstMax_get :
    ∀ (l : List (List Obs)) (i : Nat) (hi : i < l.length),
      (∀ j (hj : j < l.length),
        lexLt (scoreOf (l.get ⟨i, hi⟩)) (scoreOf (l.get ⟨j, hj⟩)) = false) →
      (∀ j (hj : j < i),
        lexLt (scoreOf (l.get ⟨j, Nat.lt_trans hj hi⟩)) (scoreOf (l.get ⟨i, hi⟩)) = true) →
      firstMax l = some (l.get ⟨i, hi⟩) := by
  intro l
  induction l with
  | nil => intro i hi; simp at hi
  | cons x xs ih =>
    intro i hi hmax hfirst
    cases i with
    | zero =>
      rw [firstMax]
      cases hm : firstMax xs with
      | none => rfl
      | some y =>
        have hymem : y ∈ xs := firstMax_mem hm
        obtain ⟨⟨j, hj⟩, hyj⟩ := List.mem_iff_get.mp hymem
        have hfalse : lexLt (scoreOf x) (scoreOf y) = false := by
          have h2 : j + 1 < (x :: xs).length := by simpa using Nat.succ_lt_succ hj
          have h3 := hmax (j + 1) h2
          rw [show (x :: xs).get ⟨j + 1, h2⟩ = xs.get ⟨j, hj⟩ from rfl, hyj] at h3
          exact h3
        simp [hfalse]
    | succ k =>
      have hk : k < xs.length := by
        simp only [List.length_cons] at hi
        omega
      have h0 : lexLt (scoreOf x) (scoreOf (xs.get ⟨k, hk⟩)) = true :=
        hfirst 0 (Nat.succ_pos k)
      have ihx : firstMax xs = some (xs.get ⟨k, hk⟩) := by
        refine ih k hk ?_ ?_
        · intro j hj
          exact hmax (j + 1) (by simpa using Nat.succ_lt_succ hj)
        · intro j hj
          exact hfirst (j + 1) (by simpa using Nat.succ_lt_succ hj)
      rw [firstMax, ihx]
      show (if lexLt (scoreOf x) (scoreOf (xs.get ⟨k, hk⟩)) = true then some (xs.get ⟨k, hk⟩)
          else some x) = some ((x :: xs).get ⟨k + 1, hi⟩)
      rw [if_pos h0]
      rfl

/-- C4: after `_dedupe_latest`, (1) no two rows share an identity key,
(2) every surviving row comes from the input, (3) every input key
survives through some row, and (4) of two rows sharing an identity key
with distinct valid filed dates, the earlier-filed one never
survives — that is, exactly the later-filed observation is kept per
key. -/
theorem c4_dedupe (l : List Obs) :
    ((dedupeLatest l).Pairwise fun a b => keyOf a ≠ keyOf b) ∧
      (∀ o ∈ dedupeLatest l, o ∈ l) ∧
      (∀ p ∈ l, ∃ o ∈ dedupeLatest l, keyOf o = keyOf p) ∧
      (∀ o1 ∈ l, ∀ o2 ∈ l, keyOf o1 = keyOf o2 →
        ∀ d1 d2 : Nat, o1.filed = some d1 → o2.filed = some d2 → d1 < d2 →
          o1 ∉ dedupeLatest l) := by
  refine ⟨dedupeLatest_pairwise l, fun o ho => mem_dedupeLatest ho,
    fun p hp => dedupeLatest_covers hp, ?_⟩
  intro o1 h1 o2 h2 hk d1 d2 hf1 hf2 hlt hmem
  have hle := dedupeLatest_latest hmem o2 h2 hk.symm
  rw [hf1, hf2] at hle
  simp [filedLe] at hle
  omega

/-- Witness for C4 at a concrete two-row input: the row filed on day
100 does not survive against a row with the same identity key filed on
day 200. -/
theorem c4_dedupe_witness : dupObsEarly ∉ dedupeLatest [dupObsLate, dupObsEarly] :=
  (c4_dedupe [dupObsLate, dupObsEarly]).2.2.2 dupObsEarly (by decide) dupObsLate (by decide)
    (by decide) 100 200 (by decide) (by decide) (by decide)

/-- C5: `_pick_best` returns a candidate of the pool whose score
triple no other candidate lexicographically exceeds, independently of
how the candidate was found (the selector never sees provenance); and
at the concrete scenario, candidate A with three observations under a
synonym tag beats candidate B with one observation under the exact
target tag at equal recency, even when B is listed first. -/
theorem c5_lex_greatest (cands : List (List Obs)) (hne : cands ≠ [])
    (hv : ∀ c ∈ cands, (latestFiled c).isSome = true) :
    pickBest cands ∈ cands ∧
      (∀ c ∈ cands, lexLt (scoreOf (pickBest cands)) (scoreOf c) = false) ∧
      pickBest [scenB, scenA] = scenA := by
  have hfm : ∃ m, firstMax cands = some m := by
    cases hm : firstMax cands with
    | none => exact absurd (firstMax_eq_none hm) hne
    | some m => exact ⟨m, rfl⟩
  obtain ⟨m, hm⟩ := hfm
  have hpb : pickBest cands = m := by
    rw [pickBest_eq_firstMax, hm]
    rfl
  refine ⟨?_, ?_, by decide⟩
  · rw [hpb]
    exact firstMax_mem hm
  · rw [hpb]
    exact firstMax_max hv hm

/-- Witness for C5 at the concrete scenario pool. -/
theorem c5_lex_greatest_witness :
    pickBest [scenB, scenA] ∈ [scenB, scenA] ∧
      (∀ c ∈ [scenB, scenA], lexLt (scoreOf (pickBest [scenB, scenA])) (scoreOf c) = false) ∧
      pickBest [scenB, scenA] = scenA :=
  c5_lex_greatest [scenB, scenA] (by decide) (by decide)

/-- C10: `_pick_best` is a total deterministic function of the
candidate list; when index `i` holds the first candidate whose score
no candidate exceeds (every earlier candidate scores strictly lower,
covering the case of later candidates with exactly equal triples), the
candidate at `i` is returned, because the sort is stable and the
positional index is excluded from the sort key. -/
theorem c10_stable_tie (cands : List (List Obs)) (i : Nat) (hi : i < cands.length)
    (hmax : ∀ j (hj : j < cands.length),
      lexLt (scoreOf (cands.get ⟨i, hi⟩)) (scoreOf (cands.get ⟨j, hj⟩)) = false)
    (hfirst : ∀ j (hj : j < i),
      lexLt (scoreOf (cands.get ⟨j, Nat.lt_trans hj hi⟩)) (scoreOf (cands.get ⟨i, hi⟩)) = true) :
    pickBest cands = cands.get ⟨i, hi⟩ := by
  rw [pickBest_eq_firstMax, firstMax_get cands i hi hmax hfirst]
  rfl

/-- Witness for C10: two distinct candidates with exactly equal score
triples; the one listed first is returned. -/
theorem c10_stable_tie_witness : pickBest [tieCand0, tieCand1] = tieCand0 :=
  c10_stable_tie [tieCand0, tieCand1] 0 (by decide)
    (fun j hj => by
      have hj2 : j < 2 := by simpa using hj
      interval_cases j
      · exact (by decide : lexLt (scoreOf tieCand0) (scoreOf tieCand0) = false)
      · exact (by decide : lexLt (scoreOf tieCand0) (scoreOf tieCand1) = false))
    (fun j hj => absurd hj (by omega))

/-! ## Extraction and gathering helpers -/

theorem mem_applyFormFilter {forms : Option (List String)} {df : List Obs} {o : Obs}
    (h : o ∈ applyFormFilter forms df) : o ∈ df := by
  cases forms with
  | none => exact h
  | some fs =>
    rw [applyFormFilter] at h
    by_cases he : fs.isEmpty
    · rw [if_pos he] at h
      exact h
    · rw [if_neg he] at h
      exact List.mem_of_mem_filter h

theorem mem_extractConcept {facts : Facts} {tax tag : String} {prefer : List String} {o : Obs}
    (h : o ∈ extractConcept facts tax tag prefer) : o.taxonomy = tax ∧ o.tag = tag := by
  rw [extractConcept] at h
  cases h1 : lookupA facts tax with
  | none => simp only [h1] at h; simp at h
  | some concepts =>
    simp only [h1] at h
    cases h2 : lookupA concepts tag with
    | none => simp only [h2] at h; simp at h
    | some units =>
      simp only [h2] at h
      cases h3 : pickUnitKey units prefer with
      | none => simp only [h3] at h; simp at h
      | some uk =>
        simp only [h3, List.mem_map] at h
        obtain ⟨r, _, rfl⟩ := h
        exact ⟨rfl, rfl⟩

theorem candFrom_pairs {facts : Facts} {forms : Option (List String)} {prefer : List String}
    {tax tag : String} {c : List Obs} (h : candFrom facts forms prefer tax tag = some c) :
    ∀ o ∈ c, o.taxonomy = tax ∧ o.tag = tag := by
  rw [candFrom] at h
  by_cases he : (extractConcept facts tax tag prefer).isEmpty
  · rw [if_pos he] at h
    simp at h
  · rw [if_neg he] at h
    obtain rfl := (Option.some.injEq _ _).mp h
    intro o ho
    exact mem_extractConcept (mem_applyFormFilter (mem_dedupeLatest ho))

theorem pickUnitKey_isSome_lookup {units : UnitsMap} {prefer : List String} {uk : String}
    (h : pickUnitKey units prefer = some uk) : (lookupA units uk).isSome = true := by
  rw [pickUnitKey] at h
  by_cases he : units.isEmpty
  · rw [if_pos he] at h
    simp at h
  · rw [if_neg he] at h
    cases hf : prefer.find? (fun u => (lookupA units u).isSome) with
    | some u =>
      rw [hf] at h
      obtain rfl := (Option.some.injEq _ _).mp h
      have hp := List.find?_some hf
      simpa using hp
    | none =>
      rw [hf] at h
      cases units with
      | nil => simp at he
      | cons kv rest =>
        simp only [List.head?_cons, Option.map_some'] at h
        obtain rfl := (Option.some.injEq _ _).mp h
        simp [lookupA, List.find?]

theorem find?_first {α : Type} (p : α → Bool) (u : α) (l1 l2 : List α)
    (hu : p u = true) (h1 : ∀ v ∈ l1, p v = false) :
    List.find? p (l1 ++ u :: l2) = some u := by
  induction l1 with
  | nil => exact List.find?_cons_of_pos _ hu
  | cons a l ih =>
    have ha : p a = false := h1 a (List.mem_cons_self _ _)
    rw [List.cons_append, List.find?_cons_of_neg _ (by simp [ha])]
    exact ih (fun v hv => h1 v (List.mem_cons_of_mem a hv))

/-- C3 (amended): `_extract_concept` keeps one output row per raw
record of the chosen unit — rows are never dropped — and a row's value
is the missing value (NaN) exactly when its raw value fails numeric
coercion; coercion never raises. -/
theorem c3_coerce_keeps_row (facts : Facts) (tax tag : String) (prefer : List String)
    (concepts : ConceptMap) (units : UnitsMap) (uk : String) (raws : List RawRec)
    (h1 : lookupA facts tax = some concepts) (h2 : lookupA concepts tag = some units)
    (h3 : pickUnitKey units prefer = some uk) (h4 : lookupA units uk = some raws) :
    extractConcept facts tax tag prefer = raws.map (rawToObs tax tag uk) ∧
      ∀ r : RawRec, ((rawToObs tax tag uk r).value = none ↔ r.val = none) := by
  constructor
  · rw [extractConcept]
    simp only [h1, h2, h3, h4, Option.getD_some]
  · intro r
    simp [rawToObs]

/-- Witness for C3 (amended) at a concrete document: the row whose raw
value fails coercion stays, with a missing value. -/
theorem c3_coerce_keeps_row_witness :
    extractConcept badValFacts "us-gaap" "Tag1" prefUSD =
        [badValRaw, goodValRaw].map (rawToObs "us-gaap" "Tag1" "USD") ∧
      badValObs.value = none :=
  ⟨(c3_coerce_keeps_row badValFacts "us-gaap" "Tag1" prefUSD
      [("Tag1", [("USD", [badValRaw, goodValRaw])])] [("USD", [badValRaw, goodValRaw])]
      "USD" [badValRaw, goodValRaw]
      (by decide) (by decide) (by decide) (by decide)).1, by decide⟩

/-- C3 counterexample: the claim says an observation whose raw value
fails numeric coercion is discarded from the gathered output; at this
document the failed-coercion observation appears in the gathered pool
with a missing value. -/
theorem c3_counterexample :
    badValObs ∈ (gatherCandidates badValFacts "Tag1" none prefUSD none (mkRat 66 100)
        none none).flatten ∧
      badValObs.value = none := by
  constructor
  · decide
  · decide

/-- C7: unit selection picks the first preferred unit present among
the declared units, otherwise the first declared unit; the scale is
1,000,000 for USDm, 1,000 for USDth, 1 for USD and for any
unrecognized unit key; and every extracted value is its raw value
times the scale of the chosen unit. -/
theorem c7_units (units : UnitsMap) (prefer : List String) :
    (∀ u l1 l2, prefer = l1 ++ u :: l2 → (lookupA units u).isSome = true →
      (∀ v ∈ l1, (lookupA units v).isSome = false) → pickUnitKey units prefer = some u) ∧
      (units ≠ [] → (∀ u ∈ prefer, (lookupA units u).isSome = false) →
        pickUnitKey units prefer = units.head?.map (fun kv => kv.1)) ∧
      (unitScale "USDm" = 1000000 ∧ unitScale "USDth" = 1000 ∧ unitScale "USD" = 1) ∧
      (∀ u, u ∉ (["USD", "USDm", "USDth", "EUR", "GBP", "pure"] : List String) →
        unitScale u = 1) ∧
      (∀ facts : Facts, ∀ tax tag : String, ∀ o ∈ extractConcept facts tax tag prefer,
        ∃ concepts units2 raws r, lookupA facts tax = some concepts ∧
          lookupA concepts tag = some units2 ∧
          pickUnitKey units2 prefer = some o.unit_key ∧
          lookupA units2 o.unit_key = some raws ∧ r ∈ raws ∧
          o.value = r.val.map (fun v => v * unitScale o.unit_key)) := by
  refine ⟨?_, ?_, ⟨by decide, by decide, by decide⟩, ?_, ?_⟩
  · intro u l1 l2 hp hu hl1
    have hne : units.isEmpty = false := by
      cases units with
      | nil => simp [lookupA] at hu
      | cons kv rest => rfl
    rw [pickUnitKey, hne]
    simp only [Bool.false_eq_true, if_false]
    rw [hp, find?_first _ u l1 l2 hu (by intro v hv; simp [hl1 v hv])]
  · intro hne hall
    have hne2 : units.isEmpty = false := by
      cases units with
      | nil => exact absurd rfl hne
      | cons kv rest => rfl
    rw [pickUnitKey, hne2]
    simp only [Bool.false_eq_true, if_false]
    rw [List.find?_eq_none.mpr (by intro u hu; simp [hall u hu])]
  · intro u hu
    simp only [List.mem_cons, List.mem_singleton] at hu
    push_neg at hu
    obtain ⟨h1, h2, h3, h4, h5, h6⟩ := hu
    simp [unitScale, h1, h2, h3, h4, h5, h6]
  · intro facts tax tag o ho
    rw [extractConcept] at ho
    cases h1 : lookupA facts tax with
    | none => simp only [h1] at ho; simp at ho
    | some concepts =>
      simp only [h1] at ho
      cases h2 : lookupA concepts tag with
      | none => simp only [h2] at ho; simp at ho
      | some units2 =>
        simp only [h2] at ho
        cases h3 : pickUnitKey units2 prefer with
        | none => simp only [h3] at ho; simp at ho
        | some uk =>
          simp only [h3] at ho
          have hsome : (lookupA units2 uk).isSome = true := pickUnitKey_isSome_lookup h3
          obtain ⟨raws, hraws⟩ := Option.isSome_iff_exists.mp hsome
          simp only [hraws, Option.getD_some, List.mem_map] at ho
          obtain ⟨r, hr, rfl⟩ := ho
          refine ⟨concepts, units2, raws, r, rfl, h2, h3, hraws, hr, ?_⟩
          show (rawToObs tax tag uk r).value = r.val.map (fun v => v * unitScale uk)
          simp only [rawToObs]
          cases r.val with
          | none => rfl
          | some v => simp [qMul_eq_mul]

/-- Witness for C7: with only a millions unit declared and the default
preference ranking, USDm is picked, and the raw value 5 resolves to
5,000,000. -/
theorem c7_units_witness :
    pickUnitKey [("USDm", [milRaw])] prefUSD = some "USDm" ∧
      (extractConcept milFacts "us-gaap" "Foo" prefUSD).map (fun o => o.value) =
        [some 5000000] :=
  ⟨(c7_units [("USDm", [milRaw])] prefUSD).1 "USDm" ["USD"] ["USDth"] rfl (by decide)
      (by decide),
    by decide⟩

/-- C8: when the three gathering passes accept nothing (empty pool),
the entry point returns the explicitly empty series; no exception
exists in this total model, and emptiness is the only no-match
signal. -/
theorem c8_no_match (facts : Facts) (target : String) (synonyms : Option (List String))
    (prefer : List String) (forms : Option (List String)) (ms : ℚ)
    (req deny : Option (List String))
    (h : gatherCandidates facts target synonyms prefer forms ms req deny = []) :
    getConceptSeriesRobust facts target synonyms prefer forms ms req deny = [] := by
  simp only [getConceptSeriesRobust, h]
  decide

/-- Witness for C8: the empty document gathers nothing and resolves to
the empty series. -/
theorem c8_no_match_witness :
    getConceptSeriesRobust [] "X" none prefUSD none (mkRat 66 100) none none = [] :=
  c8_no_match [] "X" none prefUSD none (mkRat 66 100) none none (by decide)

/-- C1: at a document whose pool contains both a 10-K observation and
6-K observations, the returned series consists of 6-K observations
only — the claim requires domestic-core forms only.  The pool does
contain a 10-K observation, and selecting from the narrowed pool
(what the discarded `_narrow_candidates_by_form(cands)` result at
line 270 would give) yields the 10-K-only series. -/
theorem c1_narrow_discarded :
    ((getConceptSeriesRobust mixedRegimeFacts "Rev" none prefUSD none (mkRat 66 100)
        none none).map (fun o => o.form) = [some "6-K", some "6-K"]) ∧
      ((gatherCandidates mixedRegimeFacts "Rev" none prefUSD none (mkRat 66 100)
          none none).flatten.any (fun o => o.form == some "10-K") = true) ∧
      ((pickBest (narrowByForm (gatherCandidates mixedRegimeFacts "Rev" none prefUSD none
          (mkRat 66 100) none none))).map (fun o => o.form) = [some "10-K"]) :=
  ⟨by decide, by decide, by decide⟩

/-- C6 counterexample: the matcher built from "DebtCurrent" does not
match "DebtCurrent2023", because every alternative is anchored to the
end of the candidate string. -/
theorem c6_counterexample : regexSearch "DebtCurrent" none "DebtCurrent2023" = false := by
  decide

/-- C6 (amended): the matcher built from "DebtCurrent" is
case-insensitive, tolerates underscore/hyphen/space separators between
the name's tokens, and is anchored only at the end — it matches
"debt_current", "DEBT-CURRENT" and "XDebtCurrent", but not
"DebtCurrent2023", whose trailing characters defeat the end anchor. -/
theorem c6_matcher :
    regexSearch "DebtCurrent" none "debt_current" = true ∧
      regexSearch "DebtCurrent" none "DEBT-CURRENT" = true ∧
      regexSearch "DebtCurrent" none "XDebtCurrent" = true ∧
      regexSearch "DebtCurrent" none "DebtCurrent2023" = false :=
  ⟨by decide, by decide, by decide, by decide⟩

/-- C2 counterexample: with required keywords ["revenue", "sales"],
the tag "TotalSales" — which contains "sales" but not "revenue" — is
not skipped: it produces the pool's single candidate.  Under the claim
the pool would be empty. -/
theorem c2_counterexample :
    (gatherCandidates salesFacts "Sales" none prefUSD none (mkRat 80 100)
        (some ["revenue", "sales"]) none).length = 1 ∧
      (∀ o ∈ (gatherCandidates salesFacts "Sales" none prefUSD none (mkRat 80 100)
        (some ["revenue", "sales"]) none).flatten, o.tag = "TotalSales") ∧
      containsSub (lowerL "revenue".toList) (lowerL "TotalSales".toList) = false :=
  ⟨by decide, by decide, by decide⟩

/-- A successful fuzzy step implies both keyword gates held and the
candidate came from `candFrom` at that pair. -/
theorem fuzzyGate_some {facts : Facts} {target : String} {synonyms : Option (List String)}
    {prefer : List String} {forms : Option (List String)} {ms : ℚ}
    {req deny : Option (List String)} {tax : String} {tg : String × UnitsMap} {c : List Obs}
    (h : fuzzyGate facts target synonyms prefer forms ms req deny tax tg = some c) :
    containsAnyKw tg.1 req = true ∧ containsNoneKw tg.1 deny = true ∧
      candFrom facts forms prefer tax tg.1 = some c := by
  rw [fuzzyGate] at h
  by_cases g1 : containsAnyKw tg.1 req = true
  · by_cases g2 : containsNoneKw tg.1 deny = true
    · simp only [g1, g2, Bool.not_true, Bool.false_eq_true, if_false] at h
      by_cases g3 : (regexSearch target synonyms tg.1 || decide (ms ≤ simVal target tg.1)) = true
      · simp only [g3, Bool.not_true, Bool.false_eq_true, if_false] at h
        exact ⟨g1, g2, h⟩
      · have g3f : (regexSearch target synonyms tg.1 || decide (ms ≤ simVal target tg.1)) = false := by
          revert g3
          cases regexSearch target synonyms tg.1 || decide (ms ≤ simVal target tg.1) <;> simp
        simp [g3f] at h
    · have g2f : containsNoneKw tg.1 deny = false := by
        revert g2
        cases containsNoneKw tg.1 deny <;> simp
      simp [g1, g2f] at h
  · have g1f : containsAnyKw tg.1 req = false := by
      revert g1
      cases containsAnyKw tg.1 req <;> simp
    simp [g1f] at h

/-- C2 (amended): in the fuzzy pass a (taxonomy, tag) pair is
considered only if the tag's text contains at least one required
keyword and none of the deny keywords, case-insensitively; the keyword
gates run before the pattern and similarity tests, so every
observation of every fuzzy candidate carries a tag passing both
gates. -/
theorem c2_fuzzy_gate (facts : Facts) (target : String) (synonyms : Option (List String))
    (prefer : List String) (forms : Option (List String)) (ms : ℚ)
    (req deny : Option (List String)) :
    ∀ c ∈ fuzzyPass facts target synonyms prefer forms ms req deny,
      ∀ o ∈ c, containsAnyKw o.tag req = true ∧ containsNoneKw o.tag deny = true := by
  intro c hc o ho
  rw [fuzzyPass] at hc
  simp only [List.mem_flatMap] at hc
  obtain ⟨tc, htc, hc2⟩ := hc
  simp only [List.mem_filterMap] at hc2
  obtain ⟨tg, htg, hf⟩ := hc2
  obtain ⟨g1, g2, hcf⟩ := fuzzyGate_some hf
  obtain ⟨htax, htag⟩ := candFrom_pairs hcf o ho
  rw [htag]
  exact ⟨g1, g2⟩

/-- Witness for C2 (amended) at the concrete document: the fuzzy
candidate's tag "TotalSales" passes both keyword gates. -/
theorem c2_fuzzy_gate_witness :
    containsAnyKw "TotalSales" (some ["revenue", "sales"]) = true ∧
      containsNoneKw "TotalSales" none = true :=
  c2_fuzzy_gate salesFacts "Sales" none prefUSD none (mkRat 80 100)
    (some ["revenue", "sales"]) none salesCand (by decide)
    (rawToObs "us-gaap" "TotalSales" "USD" salesRaw) (by decide)

/-! ## Pair-count accounting for the gathering passes -/

theorem filter_length_zero_of {p : List Obs → Bool} {l : List (List Obs)}
    (h : ∀ c ∈ l, p c = false) : (l.filter p).length = 0 := by
  rw [List.length_eq_zero, List.filter_eq_nil_iff]
  intro a ha
  simp [h a ha]

theorem count_filterMap_le_one {α : Type} (l : List α) (f : α → Option (List Obs))
    (p : List Obs → Bool) (k : α → String) (t : String)
    (hnd : (l.map k).Nodup)
    (hk : ∀ a ∈ l, ∀ c, f a = some c → p c = true → k a = t) :
    ((l.filterMap f).filter p).length ≤ 1 := by
  induction l with
  | nil => simp
  | cons a as ih =>
    rw [List.map_cons] at hnd
    obtain ⟨hnotmem, hnd2⟩ := List.nodup_cons.mp hnd
    rw [List.filterMap_cons]
    cases hfa : f a with
    | none =>
      exact ih hnd2 (fun a2 ha2 c hc hp => hk a2 (List.mem_cons_of_mem a ha2) c hc hp)
    | some c =>
      rw [List.filter_cons]
      by_cases hpc : p c = true
      · rw [if_pos hpc]
        have hka : k a = t := hk a (List.mem_cons_self a as) c hfa hpc
        have hz : ((as.filterMap f).filter p).length = 0 := by
          apply filter_length_zero_of
          intro c2 hc2
          obtain ⟨a2, ha2, hfa2⟩ := List.mem_filterMap.mp hc2
          by_cases hpc2 : p c2 = true
          · exfalso
            have hka2 : k a2 = t := hk a2 (List.mem_cons_of_mem a ha2) c2 hfa2 hpc2
            have hmm : k a2 ∈ as.map k := List.mem_map_of_mem k ha2
            rw [hka2, ← hka] at hmm
            exact hnotmem hmm
          · revert hpc2
            cases p c2 <;> simp
        simp [hz]
      · rw [if_neg hpc]
        exact ih hnd2 (fun a2 ha2 c2 hc2 hp2 => hk a2 (List.mem_cons_of_mem a ha2) c2 hc2 hp2)

theorem count_flatMap_zero {α : Type} (l : List α) (g : α → List (List Obs))
    (p : List Obs → Bool) (h : ∀ a ∈ l, ((g a).filter p).length = 0) :
    ((l.flatMap g).filter p).length = 0 := by
  induction l with
  | nil => simp
  | cons a as ih =>
    rw [List.flatMap_cons, List.filter_append, List.length_append]
    rw [h a (List.mem_cons_self a as), ih (fun a2 h2 => h a2 (List.mem_cons_of_mem a h2))]

theorem count_flatMap_le_one {α : Type} (l : List α) (g : α → List (List Obs))
    (p : List Obs → Bool) (k : α → String) (t : String)
    (hnd : (l.map k).Nodup)
    (h0 : ∀ a ∈ l, k a ≠ t → ((g a).filter p).length = 0)
    (h1 : ∀ a ∈ l, ((g a).filter p).length ≤ 1) :
    ((l.flatMap g).filter p).length ≤ 1 := by
  induction l with
  | nil => simp
  | cons a as ih =>
    rw [List.map_cons] at hnd
    obtain ⟨hnotmem, hnd2⟩ := List.nodup_cons.mp hnd
    rw [List.flatMap_cons, List.filter_append, List.length_append]
    by_cases hka : k a = t
    · have hrest : ((as.flatMap g).filter p).length = 0 := by
        apply count_flatMap_zero
        intro a2 ha2
        apply h0 a2 (List.mem_cons_of_mem a ha2)
        intro he
        have hmm : k a2 ∈ as.map k := List.mem_map_of_mem k ha2
        rw [he, ← hka] at hmm
        exact hnotmem hmm
      have hha := h1 a (List.mem_cons_self a as)
      omega
    · have hz := h0 a (List.mem_cons_self a as) hka
      have hr := ih hnd2 (fun a2 h2 => h0 a2 (List.mem_cons_of_mem a h2))
        (fun a2 h2 => h1 a2 (List.mem_cons_of_mem a h2))
      omega

theorem pairHit_false_of {tax tag tax2 tag2 : String} {c : List Obs}
    (hall : ∀ o ∈ c, o.taxonomy = tax2 ∧ o.tag = tag2)
    (hne : tax2 ≠ tax ∨ tag2 ≠ tag) : pairHit tax tag c = false := by
  rw [pairHit, List.any_eq_false]
  intro o ho
  obtain ⟨h1, h2⟩ := hall o ho
  simp only [h1, h2, Bool.and_eq_true, beq_iff_eq, not_and]
  intro hta
  rcases hne with hne | hne
  · exact absurd hta hne
  · exact hne

theorem pairCount_exactPassStd_le (facts : Facts) (target : String) (prefer : List String)
    (forms : Option (List String)) (tax tag : String) :
    pairCount (exactPassStd facts target prefer forms) tax tag ≤ 1 := by
  rw [pairCount, exactPassStd]
  apply count_filterMap_le_one _ _ _ (fun s => s) tax
  · decide
  · intro a ha c hc hp
    obtain ⟨o, hoc, hpo⟩ := List.any_eq_true.mp hp
    obtain ⟨h1, h2⟩ := candFrom_pairs hc o hoc
    simp only [Bool.and_eq_true, beq_iff_eq] at hpo
    exact h1.symm.trans hpo.1

theorem pairCount_exactPassStd_zero (facts : Facts) (target : String) (prefer : List String)
    (forms : Option (List String)) (tax tag : String)
    (h : tax ≠ "us-gaap" ∧ tax ≠ "ifrs-full") :
    pairCount (exactPassStd facts target prefer forms) tax tag = 0 := by
  rw [pairCount]
  apply filter_length_zero_of
  intro c hc
  rw [exactPassStd] at hc
  obtain ⟨a, ha, hfa⟩ := List.mem_filterMap.mp hc
  apply pairHit_false_of (candFrom_pairs hfa)
  left
  simp only [List.mem_cons, List.mem_singleton] at ha
  rcases ha with rfl | rfl | h0
  · exact fun he => h.1 he.symm
  · exact fun he => h.2 he.symm
  · exact absurd h0 (List.not_mem_nil a)

theorem exactPassExt_some {facts : Facts} {target : String} {prefer : List String}
    {forms : Option (List String)} {tc : String × ConceptMap} {c : List Obs}
    (h : (if tc.1 = "us-gaap" ∨ tc.1 = "ifrs-full" then none
          else if (lookupA tc.2 target).isSome then candFrom facts forms prefer tc.1 target
          else none) = some c) :
    ¬(tc.1 = "us-gaap" ∨ tc.1 = "ifrs-full") ∧
      candFrom facts forms prefer tc.1 target = some c := by
  by_cases h1 : tc.1 = "us-gaap" ∨ tc.1 = "ifrs-full"
  · rw [if_pos h1] at h
    exact absurd h (by simp)
  · rw [if_neg h1] at h
    by_cases h2 : (lookupA tc.2 target).isSome = true
    · rw [if_pos h2] at h
      exact ⟨h1, h⟩
    · rw [if_neg h2] at h
      exact absurd h (by simp)

theorem pairCount_exactPassExt_le (facts : Facts) (target : String) (prefer : List String)
    (forms : Option (List String)) (tax tag : String)
    (hnd : (facts.map Prod.fst).Nodup) :
    pairCount (exactPassExt facts target prefer forms) tax tag ≤ 1 := by
  rw [pairCount, exactPassExt]
  apply count_filterMap_le_one _ _ _ Prod.fst tax hnd
  intro tc htc c hc hp
  obtain ⟨hstd, hcf⟩ := exactPassExt_some hc
  obtain ⟨o, hoc, hpo⟩ := List.any_eq_true.mp hp
  obtain ⟨h1, h2⟩ := candFrom_pairs hcf o hoc
  simp only [Bool.and_eq_true, beq_iff_eq] at hpo
  exact h1.symm.trans hpo.1

theorem pairCount_exactPassExt_zero (facts : Facts) (target : String) (prefer : List String)
    (forms : Option (List String)) (tax tag : String)
    (h : tax = "us-gaap" ∨ tax = "ifrs-full") :
    pairCount (exactPassExt facts target prefer forms) tax tag = 0 := by
  rw [pairCount]
  apply filter_length_zero_of
  intro c hc
  rw [exactPassExt] at hc
  obtain ⟨tc, htc, hfa⟩ := List.mem_filterMap.mp hc
  obtain ⟨hstd, hcf⟩ := exactPassExt_some hfa
  apply pairHit_false_of (candFrom_pairs hcf)
  left
  intro he
  rw [he] at hstd
  exact hstd h

theorem pairCount_fuzzyPass_le (facts : Facts) (target : String)
    (synonyms : Option (List String)) (prefer : List String) (forms : Option (List String))
    (ms : ℚ) (req deny : Option (List String)) (tax tag : String)
    (hnd1 : (facts.map Prod.fst).Nodup)
    (hnd2 : ∀ tc ∈ facts, (tc.2.map Prod.fst).Nodup) :
    pairCount (fuzzyPass facts target synonyms prefer forms ms req deny) tax tag ≤ 1 := by
  rw [pairCount, fuzzyPass]
  apply count_flatMap_le_one _ _ _ Prod.fst tax hnd1
  · intro tc htc hne
    apply filter_length_zero_of
    intro c hc
    obtain ⟨tg, htg, hf⟩ := List.mem_filterMap.mp hc
    obtain ⟨_, _, hcf⟩ := fuzzyGate_some hf
    exact pairHit_false_of (candFrom_pairs hcf) (Or.inl hne)
  · intro tc htc
    apply count_filterMap_le_one _ _ _ (fun tg => tg.1) tag (hnd2 tc htc)
    intro tg htg c hc hp
    obtain ⟨_, _, hcf⟩ := fuzzyGate_some hc
    obtain ⟨o, hoc, hpo⟩ := List.any_eq_true.mp hp
    obtain ⟨h1, h2⟩ := candFrom_pairs hcf o hoc
    simp only [Bool.and_eq_true, beq_iff_eq] at hpo
    exact h2.symm.trans hpo.2

/-- C9 (amended): the fuzzy pass scans every (taxonomy, tag) pair,
including pairs already captured by the exact passes, so an
exactly-matched pair passing the fuzzy gates is gathered twice; for
every document whose taxonomy keys and per-taxonomy tag keys are
duplicate-free (as Python dict keys are), no single pair contributes
more than two candidate series to the pool — at most one from the two
exact passes and at most one from the fuzzy pass. -/
theorem c9_pair_bound (facts : Facts) (target : String) (synonyms : Option (List String))
    (prefer : List String) (forms : Option (List String)) (ms : ℚ)
    (req deny : Option (List String)) (tax tag : String)
    (hnd1 : (facts.map Prod.fst).Nodup)
    (hnd2 : ∀ tc ∈ facts, (tc.2.map Prod.fst).Nodup) :
    pairCount (gatherCandidates facts target synonyms prefer forms ms req deny) tax tag ≤ 2 := by
  have hsub :
      pairCount (gatherCandidates facts target synonyms prefer forms ms req deny) tax tag ≤
        pairCount (exactPassStd facts target prefer forms ++
          exactPassExt facts target prefer forms ++
          fuzzyPass facts target synonyms prefer forms ms req deny) tax tag := by
    rw [pairCount, pairCount, gatherCandidates]
    exact ((List.filter_sublist _).filter _).length_le
  have happ :
      pairCount (exactPassStd facts target prefer forms ++
          exactPassExt facts target prefer forms ++
          fuzzyPass facts target synonyms prefer forms ms req deny) tax tag =
        pairCount (exactPassStd facts target prefer forms) tax tag +
          pairCount (exactPassExt facts target prefer forms) tax tag +
          pairCount (fuzzyPass facts target synonyms prefer forms ms req deny) tax tag := by
    simp [pairCount, List.filter_append]
    omega
  have h3le := pairCount_fuzzyPass_le facts target synonyms prefer forms ms req deny tax tag
    hnd1 hnd2
  by_cases hstd : tax = "us-gaap" ∨ tax = "ifrs-full"
  · have h2z := pairCount_exactPassExt_zero facts target prefer forms tax tag hstd
    have h1le := pairCount_exactPassStd_le facts target prefer forms tax tag
    omega
  · push_neg at hstd
    have h1z := pairCount_exactPassStd_zero facts target prefer forms tax tag hstd
    have h2le := pairCount_exactPassExt_le facts target prefer forms tax tag hnd1
    omega

/-- Witness for C9 (amended) at the concrete document where the pair
is gathered exactly twice. -/
theorem c9_pair_bound_witness :
    pairCount (gatherCandidates debtFacts "DebtCurrent" none prefUSD none (mkRat 80 100)
      none none) "us-gaap" "DebtCurrent" ≤ 2 :=
  c9_pair_bound debtFacts "DebtCurrent" none prefUSD none (mkRat 80 100) none none
    "us-gaap" "DebtCurrent" (by decide) (by decide)

/-- C9 counterexample: the target tag present literally in the
standard taxonomy is captured by the exact-primary pass and again by
the fuzzy pass, so one (taxonomy, tag) pair contributes two candidate
series — the claim allows at most one. -/
theorem c9_counterexample :
    pairCount (gatherCandidates debtFacts "DebtCurrent" none prefUSD none (mkRat 80 100)
      none none) "us-gaap" "DebtCurrent" = 2 := by
  decide
